import Mathlib

/-!
Verification of the osgit repository (GitHub-based subdomain discovery and
repository path extraction) against its natural-language specification.

Strings are modelled as lists of characters (`Str`), Python's `str.replace`
as `replaceAll` (leftmost, non-overlapping, no rescan of the replacement),
and the regular expressions built by `setup_search_parameters` by an
executable matcher (`regexSearch`) for the unanchored pattern
`((?:[a-zA-Z0-9_-]+\.)*LIT)` where `LIT` is the `re.escape`d literal tail
(escaping is modelled by matching the tail literally).  Stateful code is
embedded as explicit state passing; network responses, the `tldextract`
parse and the compiled pattern's match function are oracle parameters.
All definitions are executable.
-/

abbrev Str := List Char

/-- Convert a Lean string literal into the character-list model. -/
def str (s : String) : Str := s.data

/-- Fuel-driven worker for `replaceAll`; fuel at least the length of the
string makes it total (used via `replaceAll` only). -/
def replaceAllFuel (pat rep : Str) : Nat → Str → Str
  | 0, s => s
  | _ + 1, [] => []
  | fuel + 1, c :: cs =>
    if pat.isPrefixOf (c :: cs) then
      rep ++ replaceAllFuel pat rep fuel ((c :: cs).drop pat.length)
    else
      c :: replaceAllFuel pat rep fuel cs

/-- Python `str.replace(pat, rep)` for nonempty `pat`: replace every
occurrence of `pat`, scanning left to right, non-overlapping, without
rescanning the replacement text. -/
def replaceAll (pat rep s : Str) : Str := replaceAllFuel pat rep s.length s

/-- `pat` occurs (as a contiguous substring) somewhere in `s`. -/
def Occurs (pat s : Str) : Prop := ∃ i, pat.isPrefixOf (s.drop i) = true

/-- Executable occurrence test used to decide `Occurs`. -/
def occursB (pat s : Str) : Bool :=
  (List.range (s.length + 1)).any fun i => pat.isPrefixOf (s.drop i)

instance (pat s : Str) : Decidable (Occurs pat s) :=
  decidable_of_iff (occursB pat s = true) (by
    constructor
    · intro h
      rcases List.any_eq_true.mp h with ⟨i, _, hp⟩
      exact ⟨i, hp⟩
    · rintro ⟨i, hp⟩
      by_cases hi : i ≤ s.length
      · exact List.any_eq_true.mpr ⟨i, List.mem_range.mpr (by omega), hp⟩
      · have hd : s.drop i = [] := List.drop_eq_nil_of_le (by omega)
        rw [hd] at hp
        have hpat : pat = [] := by
          cases pat with
          | nil => rfl
          | cons c cs => simp [List.isPrefixOf] at hp
        refine List.any_eq_true.mpr ⟨0, List.mem_range.mpr (by omega), ?_⟩
        simp [hpat, List.isPrefixOf])

/-- `get_raw_url` host constant: the GitHub web prefix that gets rewritten. -/
def githubUrlPrefix : Str := str "https://github.com/"

/-- `get_raw_url` host constant: the raw-content prefix it is rewritten to. -/
def rawUrlPrefix : Str := str "https://raw.githubusercontent.com/"

/-- The `/blob/` segment that `get_raw_url` collapses to `/`. -/
def blobSegment : Str := str "/blob/"

/-- `SubdomainFinder.get_raw_url`: rewrite the display URL's host and replace
every (leftmost, non-overlapping) occurrence of `/blob/` with `/`. -/
def get_raw_url (htmlUrl : Str) : Str :=
  replaceAll blobSegment (str "/") (replaceAll githubUrlPrefix rawUrlPrefix htmlUrl)

/-- The regex character class `[a-zA-Z0-9_-]` used for subdomain labels. -/
def isLabelChar (c : Char) : Bool :=
  (decide ('a' ≤ c) && decide (c ≤ 'z')) || (decide ('A' ≤ c) && decide (c ≤ 'Z')) ||
  (decide ('0' ≤ c) && decide (c ≤ '9')) || (c == '_') || (c == '-')

/-- Matcher for a match of `(?:[a-zA-Z0-9_-]+\.)*d` starting at the current
position.  `flag = false`: at an iteration boundary (either `d` starts here
or a fresh label begins); `flag = true`: inside a label, at least one label
character consumed, waiting for more label characters or the closing dot. -/
def regexState (d : Str) : Bool → Str → Bool
  | false, [] => d.isPrefixOf []
  | false, c :: s => d.isPrefixOf (c :: s) || (isLabelChar c && regexState d true s)
  | true, [] => false
  | true, c :: s => if c = '.' then regexState d false s else (isLabelChar c && regexState d true s)

/-- Unanchored search (the semantics of `re.findall` finding at least one
match): does `(?:[a-zA-Z0-9_-]+\.)*d` match starting at some position? -/
def regexSearch (d : Str) : Str → Bool
  | [] => regexState d false []
  | c :: s => regexState d false (c :: s) || regexSearch d s

/-- Python `str.replace('-', '%2D')` applied to the search query. -/
def escapeHyphens : Str → Str
  | [] => []
  | c :: s => if c = '-' then '%' :: '2' :: 'D' :: escapeHyphens s else c :: escapeHyphens s

/-- The result of `tldextract.extract`: the registrable-domain part and the
public suffix (empty when no suffix is discoverable). -/
structure HostParse where
  domainPart : Str
  suffix : Str

/-- `SubdomainFinder.setup_search_parameters`: build the quoted search query
(hyphens percent-escaped) and the extraction pattern.  The pattern
`((?:[a-zA-Z0-9_-]+\.)*LIT)` is represented by its literal tail `LIT`
(`re.escape` makes the tail literal); its semantics is `regexSearch`. -/
def setup_search_parameters (domain : Str) (hostParse : HostParse) (extend : Bool) : Str × Str :=
  if extend then
    (escapeHyphens ('"' :: hostParse.domainPart ++ ['"']),
     hostParse.domainPart ++ '.' :: hostParse.suffix)
  else
    (escapeHyphens ('"' :: (hostParse.domainPart ++ '.' :: hostParse.suffix) ++ ['"']),
     domain)

/-- The two domains share a (nonempty) common string suffix. -/
def sharesSuffix (a b : Str) : Prop := ∃ s : Str, s ≠ [] ∧ s <:+ a ∧ s <:+ b

/-- Python `str.strip()`: remove leading and trailing whitespace. -/
def pyStrip (s : Str) : Str :=
  ((s.dropWhile Char.isWhitespace).reverse.dropWhile Char.isWhitespace).reverse

/-- The per-match normalization `match.lower().strip()`. -/
def normalizeMatch (s : Str) : Str := pyStrip (s.map Char.toLower)

/-- The run-shared mutable state of `SubdomainFinder`: `history_urls`
(SeenURLs), `history` (SubdomainHistory), plus the observable trace of
emitted lines (origin URL in source mode) and of URLs passed to
`fetch_code`. -/
structure WorkerState where
  historyUrls : List Str
  history : List Str
  emissions : List (Option Str × Str)
  fetched : List Str
deriving DecidableEq

def emptyWorkerState : WorkerState := ⟨[], [], [], []⟩

/-- The match loop of `extract_subdomains_from_code`: `local_history` is
the per-file dedup list; in source mode every new-to-this-file subdomain
is appended to history and emitted with the file's origin URL; otherwise
only globally-new subdomains are appended and emitted. -/
def processMatches (source : Bool) (origin : Str) :
    List Str → List Str → WorkerState → WorkerState
  | [], _, st => st
  | m :: ms, localHistory, st =>
    if m ≠ [] ∧ m ∉ localHistory then
      processMatches source origin ms (localHistory ++ [m])
        (if source then
          { st with history := st.history ++ [m],
                    emissions := st.emissions ++ [(some origin, m)] }
        else if m ∉ st.history then
          { st with history := st.history ++ [m],
                    emissions := st.emissions ++ [(none, m)] }
        else st)
    else
      processMatches source origin ms localHistory st

/-- `SubdomainFinder.extract_subdomains_from_code`, sequentially: skip if
the raw URL was seen, else record it, fetch (the oracle `fetch` models
`fetch_code`; `none` = fetch error, `[]` = falsy empty body), and run the
match loop over the pattern's matches (`findall` models
`re.findall(domain_regexp, code, re.IGNORECASE)`). -/
def extract_subdomains_from_code (fetch : Str → Option Str) (findall : Str → List Str)
    (source : Bool) (st : WorkerState) (htmlUrl : Str) : WorkerState :=
  let url := get_raw_url htmlUrl
  if url ∈ st.historyUrls then st
  else
    let st1 : WorkerState :=
      { st with historyUrls := st.historyUrls ++ [url], fetched := st.fetched ++ [url] }
    match fetch url with
    | none => st1
    | some code =>
      if code = [] then st1
      else processMatches source htmlUrl ((findall code).map normalizeMatch) [] st1

/-- Sequential processing of a batch of search hits (each hit is its
display URL, the only field the worker reads). -/
def processHits (fetch : Str → Option Str) (findall : Str → List Str)
    (source : Bool) (st : WorkerState) (hits : List Str) : WorkerState :=
  hits.foldl (extract_subdomains_from_code fetch findall source) st

/-- Concrete scenario for the C6 witness: a duplicate pair of hits. -/
def dupHit : Str := str "https://github.com/a/r/blob/main/f.txt"

/-- The per-file list of new, nonempty subdomains in the order the match
loop first meets them, relative to an initial `local_history`. -/
def newSubs : List Str → List Str → List Str
  | [], _ => []
  | m :: ms, lh => if m ≠ [] ∧ m ∉ lh then m :: newSubs ms (lh ++ [m]) else newSubs ms lh

/-- Occurrence count (used to state "emitted exactly once"). -/
def countOcc {α : Type} [DecidableEq α] (a : α) : List α → Nat
  | [] => 0
  | b :: l => (if b = a then 1 else 0) + countOcc a l

/-- Concrete oracles for worker witnesses: two hits with distinct raw URLs
whose fetched contents both match the same subdomain. -/
def cHit1 : Str := str "https://github.com/a/r/blob/m/f1"

def cHit2 : Str := str "https://github.com/a/r/blob/m/f2"

def cFetch : Str → Option Str := fun u =>
  if u = get_raw_url cHit1 then some (str "A")
  else if u = get_raw_url cHit2 then some (str "B")
  else none

def cFindall : Str → List Str := fun _ => [str "sub.example.com"]

/-- A (normalized, nonempty) subdomain `s` appears among the pattern's
matches of the content fetched from URL `u`. -/
def AppearsIn (fetch : Str → Option Str) (findall : Str → List Str) (s u : Str) : Prop :=
  s ≠ [] ∧ ∃ c, fetch u = some c ∧ c ≠ [] ∧ s ∈ (findall c).map normalizeMatch

/-- The shape of a search response body the run inspects: presence of the
`documentation_url` / `message` keys and the `items` list (absent key =
`none`).  A `none` body at the call site models `response.json()` raising
or `None`. -/
structure SearchJson where
  hasDocumentationUrl : Bool
  hasMessage : Bool
  items : Option (List Str)
deriving DecidableEq

/-- One issued GitHub code-search request (credential, query, page, sort,
order). -/
structure ApiRequest where
  token : Str
  search : Str
  page : Nat
  sort : Str
  order : Str
deriving DecidableEq

/-- One HTTP response: status, the `X-RateLimit-Reset` header (absent =
`none`), and the parsed body. -/
structure HttpResp where
  status : Nat
  rateLimitReset : Option Int
  body : Option SearchJson
deriving DecidableEq

/-- `SubdomainFinder.github_api_search_code`, over a stream of HTTP
responses (one per issued request) and the current epoch time.  On a 403
whose reset header is present with `0 < wait < 3600` it sleeps `wait + 1`
seconds (so the clock advances) and recursively reissues the identical
request on the rest of the stream; on any other response it returns that
response's body.  An empty stream models `requests.get` raising (the
`except` branch returns `None`).  Returns the parsed result together with
the list of issued requests. -/
def github_api_search_code (token search : Str) (page : Nat) (sort order : Str) :
    Int → List HttpResp → Option SearchJson × List ApiRequest
  | _, [] => (none, [⟨token, search, page, sort, order⟩])
  | now, resp :: rest =>
    if resp.status = 403 then
      match resp.rateLimitReset with
      | some reset =>
        if 0 < reset - now ∧ reset - now < 3600 then
          let r := github_api_search_code token search page sort order
            (now + (reset - now) + 1) rest
          (r.1, ⟨token, search, page, sort, order⟩ :: r.2)
        else (resp.body, [⟨token, search, page, sort, order⟩])
      | none => (resp.body, [⟨token, search, page, sort, order⟩])
    else (resp.body, [⟨token, search, page, sort, order⟩])

/-- Does this response trigger the rate-limit sleep-and-retry path? -/
def qualifiesRetry (now : Int) (resp : HttpResp) : Bool :=
  resp.status == 403 &&
    (match resp.rateLimitReset with
     | some reset => decide (0 < reset - now) && decide (reset - now < 3600)
     | none => false)

/-- Body of the successful response in the C1 counterexample. -/
def cexBody : SearchJson := ⟨false, false, some [str "x"]⟩

/-- Response stream for the C1 counterexample: two qualifying 403s, then a
200. -/
def cexResps : List HttpResp :=
  [⟨403, some 5, none⟩, ⟨403, some 2000, none⟩, ⟨200, none, some cexBody⟩]

/-- The three fixed sort/order strategies of `SubdomainFinder.run`, in
source order (the third sort string is empty). -/
def sortOrders : List (Str × Str) :=
  [(str "indexed", str "desc"), (str "indexed", str "asc"), ([], str "desc")]

/-- The per-strategy paging loop of `SubdomainFinder.run`, projected onto
the trace of issued search requests.  `oracle` abstracts the result of
`github_api_search_code` (`none` models a falsy result), `pick` models
`random.choice`, and `fuel` bounds the iterations (each iteration either
discards a token or advances a page).  Mirrors the source: while tokens
remain, pick one and issue the request; discard the picked token on a
falsy result or on a body with a `documentation_url`/`message` key;
advance the page on a nonempty `items` list; stop otherwise. -/
def strategyLoop (oracle : ApiRequest → Option SearchJson) (pick : List Str → Str)
    (search sort order : Str) :
    Nat → Nat → List Str → List ApiRequest → List ApiRequest
  | 0, _, _, acc => acc
  | fuel + 1, page, available, acc =>
    if available.isEmpty then acc
    else
      let token := pick available
      let req : ApiRequest := ⟨token, search, page, sort, order⟩
      match oracle req with
      | none => strategyLoop oracle pick search sort order fuel page
          (available.erase token) (acc ++ [req])
      | some j =>
        if j.hasDocumentationUrl || j.hasMessage then
          strategyLoop oracle pick search sort order fuel page
            (available.erase token) (acc ++ [req])
        else
          match j.items with
          | some (_ :: _) =>
              strategyLoop oracle pick search sort order fuel (page + 1) available (acc ++ [req])
          | _ => acc ++ [req]

/-- `SubdomainFinder.run`, projected onto the trace of issued search
requests: return immediately when no tokens are configured, otherwise
build the query via `setup_search_parameters` from the `tldextract` parse
(oracle `tldParse`) and run the three strategies in order, each starting
at page 1 with `available_tokens = tokens.copy()`.  Output-file handling,
verbose printing and the worker pool (modelled separately by
`processHits`) are omitted: only the request trace is kept. -/
def osgit_sub_run (oracle : ApiRequest → Option SearchJson) (pick : List Str → Str)
    (tldParse : Str → HostParse) (tokens : List Str) (domain : Str) (extend : Bool)
    (fuel : Nat) : List ApiRequest :=
  if tokens.isEmpty then []
  else
    sortOrders.foldl
      (fun acc so =>
        strategyLoop oracle pick (setup_search_parameters domain (tldParse domain) extend).1
          so.1 so.2 fuel 1 tokens acc)
      []

/-- Lexicographic (code-point) Boolean order on character lists: the order
Python's `list.sort()` applies to the extracted strings. -/
def strLe : Str → Str → Bool
  | [], _ => true
  | _ :: _, [] => false
  | a :: as, b :: bs => if a < b then true else if b < a then false else strLe as bs

instance : DecidableRel (fun a b : Str => strLe a b = true) :=
  fun a b => inferInstanceAs (Decidable (strLe a b = true))

instance : IsTotal Str (fun a b : Str => strLe a b = true) where
  total := by
      intro a
      induction a with
      | nil => intro b; left; rfl
      | cons x as ih =>
        intro b
        cases b with
        | nil => right; rfl
        | cons y bs =>
          rcases lt_trichotomy x y with h | h | h
          · left; simp [strLe, h]
          · subst h
            rcases ih bs with hl | hr
            · left; simp [strLe, lt_irrefl, hl]
            · right; simp [strLe, lt_irrefl, hr]
          · right; simp [strLe, h]

instance : IsTrans Str (fun a b : Str => strLe a b = true) where
  trans := by
      intro a
      induction a with
      | nil => intro b c _ _; rfl
      | cons x as ih =>
        intro b c hab hbc
        cases b with
        | nil => simp [strLe] at hab
        | cons y bs =>
          cases c with
          | nil => simp [strLe] at hbc
          | cons z cs =>
            rcases lt_trichotomy x y with h1 | h1 | h1
            · rcases lt_trichotomy y z with h2 | h2 | h2
              · simp [strLe, lt_trans h1 h2]
              · subst h2; simp [strLe, h1]
              · simp [strLe, lt_asymm h2, h2] at hbc
            · subst h1
              rcases lt_trichotomy x z with h2 | h2 | h2
              · simp [strLe, h2]
              · subst h2
                simp only [strLe, lt_irrefl, if_neg (lt_irrefl x)] at hab hbc ⊢
                exact ih bs cs hab hbc
              · simp [strLe, lt_asymm h2, h2] at hbc
            · simp [strLe, lt_asymm h1, h1] at hab

/-- One entry of a GitHub tree response: its `path` value (`none` models
an absent key, `some []` an empty string — both falsy). -/
structure TreeItem where
  path : Option Str

/-- A tree response body: `tree` is the list under the "tree" key
(`none` models an absent key). -/
structure TreeJson where
  tree : Option (List TreeItem)

/-- Python `path.split('/')`: single-character separator, empty pieces
kept. -/
def splitSlash : Str → List Str
  | [] => [[]]
  | c :: s =>
    if c = '/' then [] :: splitSlash s
    else
      match splitSlash s with
      | [] => [[c]]
      | t :: ts => (c :: t) :: ts

/-- Append-if-unseen.  The source keeps a `seen` set beside `results`; the
two always hold the same elements, so a single membership-checked list is
the same computation. -/
def dedupAppend (acc : List Str) (x : Str) : List Str :=
  if x ∈ acc then acc else acc ++ [x]

/-- The inner loop over a path's segments: keep nonempty unseen segments. -/
def segStep (acc : List Str) (seg : Str) : List Str :=
  if seg ≠ [] then dedupAppend acc seg else acc

/-- The loop body over tree items: skip falsy paths; in full-path mode
dedup-append the whole path, otherwise dedup-append its nonempty
segments. -/
def itemStep (fullPaths : Bool) (acc : List Str) (item : TreeItem) : List Str :=
  match item.path with
  | none => acc
  | some p =>
    if p = [] then acc
    else if fullPaths then dedupAppend acc p
    else (splitSlash p).foldl segStep acc

/-- `PathExtractor.extract_paths_and_segments`: guard on a falsy response
or a missing "tree" key, collect with insertion-order dedup, then
`results.sort()` (modelled by insertion sort under the code-point order
`strLe`, which is the unique sorted reordering). -/
def extract_paths_and_segments (treeJson : Option TreeJson) (fullPaths : Bool) : List Str :=
  match treeJson with
  | none => []
  | some tj =>
    match tj.tree with
    | none => []
    | some items =>
      List.insertionSort (fun a b => strLe a b = true) (items.foldl (itemStep fullPaths) [])

/-- The persistent configuration as the token commands observe it: the
`github_tokens` list (the other keys are never touched by them). -/
structure OsgitConfig where
  github_tokens : List Str
deriving DecidableEq

/-- `OSGitCore.add_token`: append the token to the stored list and save,
unless it is already present — then the stored configuration is left
unchanged. -/
def add_token (cfg : OsgitConfig) (t : Str) : OsgitConfig :=
  if t ∈ cfg.github_tokens then cfg
  else { cfg with github_tokens := cfg.github_tokens ++ [t] }

/-- `OSGitCore.remove_token`: `list.remove` — delete the first occurrence
of the token when present, otherwise leave the configuration unchanged. -/
def remove_token (cfg : OsgitConfig) (t : Str) : OsgitConfig :=
  if t ∈ cfg.github_tokens then { cfg with github_tokens := cfg.github_tokens.erase t }
  else cfg

theorem replaceAllFuel_congr (pat rep : Str) (hpat : pat ≠ []) :
    ∀ f g s, s.length ≤ f → s.length ≤ g →
      replaceAllFuel pat rep f s = replaceAllFuel pat rep g s := by
  intro f
  induction f with
  | zero =>
    intro g s hf _
    have hs : s = [] := List.eq_nil_of_length_eq_zero (Nat.le_zero.mp hf)
    subst hs
    cases g <;> rfl
  | succ f ih =>
    intro g s hf hg
    cases s with
    | nil => cases g <;> rfl
    | cons c cs =>
      cases g with
      | zero => simp at hg
      | succ g =>
        have hplen : 0 < pat.length := List.length_pos.mpr hpat
        have hcf : cs.length ≤ f := by simpa using hf
        have hcg : cs.length ≤ g := by simpa using hg
        simp only [replaceAllFuel]
        by_cases hp : pat.isPrefixOf (c :: cs) = true
        · simp only [hp, if_true]
          have hdf : ((c :: cs).drop pat.length).length ≤ f := by
            simp only [List.length_drop, List.length_cons]; omega
          have hdg : ((c :: cs).drop pat.length).length ≤ g := by
            simp only [List.length_drop, List.length_cons]; omega
          rw [ih g _ hdf hdg]
        · simp only [hp, if_false]
          rw [ih g cs hcf hcg]
          simp

theorem replaceAll_cons_neg (pat rep : Str) (c : Char) (cs : Str)
    (h : ¬ pat.isPrefixOf (c :: cs) = true) :
    replaceAll pat rep (c :: cs) = c :: replaceAll pat rep cs := by
  show replaceAllFuel pat rep (cs.length + 1) (c :: cs) = _
  simp only [replaceAllFuel, h, if_false]
  rfl

theorem replaceAll_cons_pos (pat rep : Str) (hpat : pat ≠ []) (c : Char) (cs : Str)
    (h : pat.isPrefixOf (c :: cs) = true) :
    replaceAll pat rep (c :: cs) = rep ++ replaceAll pat rep ((c :: cs).drop pat.length) := by
  show replaceAllFuel pat rep (cs.length + 1) (c :: cs) = _
  simp only [replaceAllFuel, h, if_true]
  congr 1
  refine replaceAllFuel_congr pat rep hpat _ _ _ ?_ le_rfl
  have hplen : 0 < pat.length := List.length_pos.mpr hpat
  simp only [List.length_drop, List.length_cons]
  omega

theorem replaceAll_of_not_occurs (pat rep : Str) :
    ∀ s : Str, ¬ Occurs pat s → replaceAll pat rep s = s := by
  intro s
  induction s with
  | nil => intro _; rfl
  | cons c cs ih =>
    intro hno
    have h0 : ¬ pat.isPrefixOf (c :: cs) = true := by
      intro hp
      exact hno ⟨0, by simpa using hp⟩
    rw [replaceAll_cons_neg pat rep c cs h0]
    have : ¬ Occurs pat cs := by
      rintro ⟨i, hp⟩
      exact hno ⟨i + 1, by simpa using hp⟩
    rw [ih this]

theorem replaceAll_append (pat rep : Str) (hpat : pat ≠ []) :
    ∀ a b : Str,
      (∀ i < a.length, ¬ pat.isPrefixOf ((a ++ pat ++ b).drop i) = true) →
      replaceAll pat rep (a ++ pat ++ b) = a ++ rep ++ replaceAll pat rep b := by
  intro a
  induction a with
  | nil =>
    intro b _
    simp only [List.nil_append]
    cases hp : pat with
    | nil => exact absurd hp hpat
    | cons p ps =>
      rw [← hp]
      have hpre : pat.isPrefixOf (pat ++ b) = true :=
        List.isPrefixOf_iff_prefix.mpr ⟨b, rfl⟩
      have hcons : pat ++ b = p :: (ps ++ b) := by rw [hp]; rfl
      rw [hcons] at hpre ⊢
      rw [replaceAll_cons_pos pat rep hpat p (ps ++ b) hpre]
      rw [← hcons]
      have hdrop : (pat ++ b).drop pat.length = b := by simp
      rw [hdrop]
  | cons c a ih =>
    intro b hfirst
    have h0 : ¬ pat.isPrefixOf ((c :: a) ++ pat ++ b) = true := by
      have := hfirst 0 (by simp)
      simpa using this
    have hc : (c :: a) ++ pat ++ b = c :: (a ++ pat ++ b) := by simp
    rw [hc] at h0
    rw [hc, replaceAll_cons_neg pat rep c (a ++ pat ++ b) h0]
    have hrest : ∀ i < a.length, ¬ pat.isPrefixOf ((a ++ pat ++ b).drop i) = true := by
      intro i hi
      have := hfirst (i + 1) (by simpa using Nat.succ_lt_succ hi)
      simpa using this
    rw [ih b hrest]
    rfl

/-- C9: the raw-content URL is the display URL with the GitHub web host
rewritten to the raw host and every (leftmost, non-overlapping) occurrence
of `/blob/` replaced by `/` — including occurrences inside the file path,
not only the branch separator.  The hypotheses say the two displayed
`/blob/` occurrences are the only ones the left-to-right scan finds. -/
theorem get_raw_url_removes_all_blob (u v w : Str)
    (h1 : ¬ Occurs githubUrlPrefix (u ++ blobSegment ++ v ++ blobSegment ++ w))
    (h2 : ∀ i < (rawUrlPrefix ++ u).length,
        ¬ blobSegment.isPrefixOf
          (((rawUrlPrefix ++ u) ++ blobSegment ++ (v ++ blobSegment ++ w)).drop i) = true)
    (h3 : ∀ i < v.length,
        ¬ blobSegment.isPrefixOf ((v ++ blobSegment ++ w).drop i) = true)
    (h4 : ¬ Occurs blobSegment w) :
    get_raw_url (githubUrlPrefix ++ (u ++ blobSegment ++ v ++ blobSegment ++ w))
      = rawUrlPrefix ++ u ++ str "/" ++ v ++ str "/" ++ w := by
  have hgh : githubUrlPrefix ≠ [] := by decide
  have hbl : blobSegment ≠ [] := by decide
  have e1 : replaceAll githubUrlPrefix rawUrlPrefix
      (githubUrlPrefix ++ (u ++ blobSegment ++ v ++ blobSegment ++ w))
      = rawUrlPrefix ++ (u ++ blobSegment ++ v ++ blobSegment ++ w) := by
    have h := replaceAll_append githubUrlPrefix rawUrlPrefix hgh []
      (u ++ blobSegment ++ v ++ blobSegment ++ w) (by intro i hi; simp at hi)
    rw [replaceAll_of_not_occurs _ _ _ h1] at h
    simpa using h
  unfold get_raw_url
  rw [e1]
  have hX : rawUrlPrefix ++ (u ++ blobSegment ++ v ++ blobSegment ++ w)
      = (rawUrlPrefix ++ u) ++ blobSegment ++ (v ++ blobSegment ++ w) := by
    simp [List.append_assoc]
  rw [hX]
  rw [replaceAll_append blobSegment (str "/") hbl (rawUrlPrefix ++ u) (v ++ blobSegment ++ w) h2]
  rw [replaceAll_append blobSegment (str "/") hbl v w h3]
  rw [replaceAll_of_not_occurs _ _ _ h4]
  simp [List.append_assoc]

theorem get_raw_url_removes_all_blob_witness :
    (¬ Occurs githubUrlPrefix
        (str "user/repo" ++ blobSegment ++ str "main/docs" ++ blobSegment ++ str "x.txt")) ∧
    get_raw_url (githubUrlPrefix ++
        (str "user/repo" ++ blobSegment ++ str "main/docs" ++ blobSegment ++ str "x.txt"))
      = rawUrlPrefix ++ str "user/repo" ++ str "/" ++ str "main/docs" ++ str "/" ++ str "x.txt" :=
  ⟨by decide,
   get_raw_url_removes_all_blob (str "user/repo") (str "main/docs") (str "x.txt")
     (by decide) (by decide) (by decide) (by decide)⟩

theorem regexState_occurs (d : Str) :
    ∀ s flag, regexState d flag s = true → Occurs d s := by
  intro s
  induction s with
  | nil =>
    intro flag h
    cases flag with
    | false => exact ⟨0, by simpa [regexState] using h⟩
    | true => simp [regexState] at h
  | cons c s ih =>
    intro flag h
    cases flag with
    | false =>
      have h' : d.isPrefixOf (c :: s) = true ∨ (isLabelChar c = true ∧ regexState d true s = true) := by
        simpa [regexState, Bool.or_eq_true, Bool.and_eq_true] using h
      rcases h' with h1 | ⟨_, h2⟩
      · exact ⟨0, by simpa using h1⟩
      · rcases ih true h2 with ⟨i, hi⟩
        exact ⟨i + 1, by simpa using hi⟩
    | true =>
      by_cases hc : c = '.'
      · have h2 : regexState d false s = true := by simpa [regexState, hc] using h
        rcases ih false h2 with ⟨i, hi⟩
        exact ⟨i + 1, by simpa using hi⟩
      · have h2 : isLabelChar c = true ∧ regexState d true s = true := by
          simpa [regexState, hc, Bool.and_eq_true] using h
        rcases ih true h2.2 with ⟨i, hi⟩
        exact ⟨i + 1, by simpa using hi⟩

theorem regexSearch_occurs (d : Str) :
    ∀ s, regexSearch d s = true → Occurs d s := by
  intro s
  induction s with
  | nil => intro h; exact regexState_occurs d [] false (by simpa [regexSearch] using h)
  | cons c s ih =>
    intro h
    have h' : regexState d false (c :: s) = true ∨ regexSearch d s = true := by
      simpa [regexSearch, Bool.or_eq_true] using h
    rcases h' with h1 | h2
    · exact regexState_occurs d (c :: s) false h1
    · rcases ih h2 with ⟨i, hi⟩
      exact ⟨i + 1, by simpa using hi⟩

theorem regexState_false_self (d : Str) : regexState d false d = true := by
  cases d with
  | nil => simp [regexState, List.isPrefixOf]
  | cons c s =>
    have h : (c :: s).isPrefixOf (c :: s) = true :=
      List.isPrefixOf_iff_prefix.mpr (List.prefix_refl _)
    simp [regexState, h]

theorem regexState_label_append (d : Str) :
    ∀ lab : Str, (∀ c ∈ lab, isLabelChar c = true) →
      regexState d true (lab ++ '.' :: d) = true := by
  intro lab
  induction lab with
  | nil => intro _; simpa [regexState] using regexState_false_self d
  | cons c lab ih =>
    intro hall
    have hc : isLabelChar c = true := hall c (by simp)
    have hcdot : c ≠ '.' := by
      intro e
      rw [e] at hc
      exact absurd hc (by decide)
    have hih := ih (fun x hx => hall x (by simp [hx]))
    simp only [List.cons_append, regexState, if_neg hcdot, List.append_eq, hc, hih]
    rfl

theorem regexSearch_label_dot (d lab : Str) (hne : lab ≠ [])
    (hall : ∀ c ∈ lab, isLabelChar c = true) :
    regexSearch d (lab ++ '.' :: d) = true := by
  cases lab with
  | nil => exact absurd rfl hne
  | cons c lab =>
    have hc : isLabelChar c = true := hall c (by simp)
    have hstate : regexState d false (c :: (lab ++ '.' :: d)) = true := by
      have hlab := regexState_label_append d lab (fun x hx => hall x (by simp [hx]))
      simp only [regexState, List.append_eq, hc, hlab]
      simp
    simp only [List.cons_append, regexSearch, List.append_eq, hstate]
    simp

theorem hyphen_not_mem_escapeHyphens : ∀ s : Str, '-' ∉ escapeHyphens s := by
  intro s
  induction s with
  | nil => simp [escapeHyphens]
  | cons c s ih =>
    by_cases hc : c = '-'
    · simp [escapeHyphens, hc, ih]
    · simp [escapeHyphens, hc, ih]
      exact fun e => hc e.symm

theorem not_sharesSuffix_of_getLast_ne (a b : Str) (h : a.getLast? ≠ b.getLast?) :
    ¬ sharesSuffix a b := by
  rintro ⟨s, hs, ⟨ta, hta⟩, ⟨tb, htb⟩⟩
  apply h
  rw [← hta, ← htb, List.getLast?_append_of_ne_nil _ hs, List.getLast?_append_of_ne_nil _ hs]

/-- C7 (amended): for extended=false the query is the quoted
`<registrable-domain>.<suffix>` with every hyphen replaced by `%2D` (so no
bare hyphen remains), and the extraction pattern matches `foo.D` for the
literal input domain `D`; but since `re.findall` performs an unanchored
substring search with no right boundary, the pattern fails to match a
string only when `D` does not occur inside it as a substring — it CAN
match `foo.otherD` for a distinct domain `otherD` sharing no suffix with
`D` whenever `D` occurs inside `foo.otherD` (see the counterexample). -/
theorem query_and_pattern_properties (domain : Str) (hostParse : HostParse) :
    (setup_search_parameters domain hostParse false).1
        = escapeHyphens ('"' :: (hostParse.domainPart ++ '.' :: hostParse.suffix) ++ ['"']) ∧
    '-' ∉ (setup_search_parameters domain hostParse false).1 ∧
    (∀ lab : Str, lab ≠ [] → (∀ c ∈ lab, isLabelChar c = true) →
      regexSearch (setup_search_parameters domain hostParse false).2 (lab ++ '.' :: domain) = true) ∧
    (∀ s : Str, ¬ Occurs domain s →
      regexSearch (setup_search_parameters domain hostParse false).2 s = false) := by
  refine ⟨rfl, ?_, ?_, ?_⟩
  · exact hyphen_not_mem_escapeHyphens _
  · intro lab hne hall
    exact regexSearch_label_dot domain lab hne hall
  · intro s hno
    cases hb : regexSearch domain s
    · exact hb
    · exact absurd (regexSearch_occurs domain s hb) hno

theorem query_and_pattern_properties_witness :
    ('-' ∉ (setup_search_parameters (str "example.com") ⟨str "example", str "com"⟩ false).1) ∧
    regexSearch (setup_search_parameters (str "example.com") ⟨str "example", str "com"⟩ false).2
      (str "foo" ++ '.' :: str "example.com") = true ∧
    regexSearch (setup_search_parameters (str "example.com") ⟨str "example", str "com"⟩ false).2
      (str "zzz.example.org") = false :=
  ⟨(query_and_pattern_properties (str "example.com") ⟨str "example", str "com"⟩).2.1,
   (query_and_pattern_properties (str "example.com") ⟨str "example", str "com"⟩).2.2.1
     (str "foo") (by decide) (by decide),
   (query_and_pattern_properties (str "example.com") ⟨str "example", str "com"⟩).2.2.2
     (str "zzz.example.org") (by decide)⟩

/-- C7 counterexample: for D = example.com and otherD = example.company —
two distinct domains sharing no (nonempty) common suffix — the
extended=false extraction pattern DOES match `foo.example.company`,
because the unanchored search finds `foo.example.com` inside it.  This
refutes "does not match foo.otherD for a distinct domain otherD sharing
no suffix with D". -/
theorem pattern_matches_other_domain_cex :
    str "example.com" ≠ str "example.company" ∧
    ¬ sharesSuffix (str "example.com") (str "example.company") ∧
    regexSearch (setup_search_parameters (str "example.com") ⟨str "example", str "com"⟩ false).2
      (str "foo" ++ '.' :: str "example.company") = true :=
  ⟨by decide, not_sharesSuffix_of_getLast_ne _ _ (by decide), by decide⟩

theorem processMatches_historyUrls (source : Bool) (origin : Str) :
    ∀ ms lh st, (processMatches source origin ms lh st).historyUrls = st.historyUrls := by
  intro ms
  induction ms with
  | nil => intro lh st; rfl
  | cons m ms ih =>
    intro lh st
    by_cases hm : m ≠ [] ∧ m ∉ lh
    · simp only [processMatches, if_pos hm]
      rw [ih]
      cases source <;> by_cases hh : m ∉ st.history <;> simp [hh]
    · simp only [processMatches, if_neg hm]
      exact ih lh st

theorem processMatches_fetched (source : Bool) (origin : Str) :
    ∀ ms lh st, (processMatches source origin ms lh st).fetched = st.fetched := by
  intro ms
  induction ms with
  | nil => intro lh st; rfl
  | cons m ms ih =>
    intro lh st
    by_cases hm : m ≠ [] ∧ m ∉ lh
    · simp only [processMatches, if_pos hm]
      rw [ih]
      cases source <;> by_cases hh : m ∉ st.history <;> simp [hh]
    · simp only [processMatches, if_neg hm]
      exact ih lh st

theorem extract_seen_skip (fetch : Str → Option Str) (findall : Str → List Str)
    (source : Bool) (st : WorkerState) (h : Str)
    (hmem : get_raw_url h ∈ st.historyUrls) :
    extract_subdomains_from_code fetch findall source st h = st := by
  simp only [extract_subdomains_from_code]
  rw [if_pos hmem]

theorem extract_fresh_fields (fetch : Str → Option Str) (findall : Str → List Str)
    (source : Bool) (st : WorkerState) (h : Str)
    (hmem : get_raw_url h ∉ st.historyUrls) :
    (extract_subdomains_from_code fetch findall source st h).historyUrls
        = st.historyUrls ++ [get_raw_url h] ∧
    (extract_subdomains_from_code fetch findall source st h).fetched
        = st.fetched ++ [get_raw_url h] := by
  simp only [extract_subdomains_from_code]
  rw [if_neg hmem]
  cases hfu : fetch (get_raw_url h) with
  | none => exact ⟨rfl, rfl⟩
  | some code =>
    by_cases hcode : code = []
    · simp only [hcode, if_pos rfl]
      exact ⟨rfl, rfl⟩
    · simp only [if_neg hcode]
      rw [processMatches_historyUrls, processMatches_fetched]
      exact ⟨rfl, rfl⟩

/-- C6: SeenURLs (`history_urls`) deduplicates fetches.  (1) A worker
invocation whose raw URL is already in SeenURLs returns immediately with
the state unchanged (no fetch); (2) SeenURLs only ever grows; (3) two
search hits resolving to the same raw-content URL, processed in one run,
cause exactly one fetch of that URL. -/
theorem seen_urls_dedup_invariant :
    (∀ (fetch : Str → Option Str) (findall : Str → List Str) (source : Bool)
        (st : WorkerState) (h : Str),
      get_raw_url h ∈ st.historyUrls →
      extract_subdomains_from_code fetch findall source st h = st) ∧
    (∀ (fetch : Str → Option Str) (findall : Str → List Str) (source : Bool)
        (st : WorkerState) (h : Str),
      ∃ t, (extract_subdomains_from_code fetch findall source st h).historyUrls
            = st.historyUrls ++ t) ∧
    (∀ (fetch : Str → Option Str) (findall : Str → List Str) (source : Bool)
        (st : WorkerState) (h₁ h₂ : Str),
      get_raw_url h₁ = get_raw_url h₂ →
      get_raw_url h₁ ∉ st.historyUrls →
      (processHits fetch findall source st [h₁, h₂]).fetched
        = st.fetched ++ [get_raw_url h₁]) := by
  refine ⟨?_, ?_, ?_⟩
  · intro fetch findall source st h hmem
    exact extract_seen_skip fetch findall source st h hmem
  · intro fetch findall source st h
    by_cases hmem : get_raw_url h ∈ st.historyUrls
    · exact ⟨[], by rw [extract_seen_skip fetch findall source st h hmem]; simp⟩
    · exact ⟨[get_raw_url h], (extract_fresh_fields fetch findall source st h hmem).1⟩
  · intro fetch findall source st h₁ h₂ hurl hmem
    show (extract_subdomains_from_code fetch findall source
        (extract_subdomains_from_code fetch findall source st h₁) h₂).fetched
        = st.fetched ++ [get_raw_url h₁]
    have hfields := extract_fresh_fields fetch findall source st h₁ hmem
    have hmem2 : get_raw_url h₂ ∈
        (extract_subdomains_from_code fetch findall source st h₁).historyUrls := by
      rw [hfields.1, ← hurl]
      simp
    rw [extract_seen_skip fetch findall source _ h₂ hmem2]
    exact hfields.2

theorem seen_urls_dedup_invariant_witness :
    get_raw_url dupHit ∈ [get_raw_url dupHit] ∧
    extract_subdomains_from_code (fun _ => none) (fun _ => []) false
        ⟨[get_raw_url dupHit], [], [], [get_raw_url dupHit]⟩ dupHit
      = ⟨[get_raw_url dupHit], [], [], [get_raw_url dupHit]⟩ ∧
    (∃ t, (extract_subdomains_from_code (fun _ => none) (fun _ => []) false
        emptyWorkerState dupHit).historyUrls = emptyWorkerState.historyUrls ++ t) ∧
    (processHits (fun _ => none) (fun _ => []) false emptyWorkerState
        [dupHit, dupHit]).fetched = emptyWorkerState.fetched ++ [get_raw_url dupHit] :=
  ⟨by simp,
   seen_urls_dedup_invariant.1 (fun _ => none) (fun _ => []) false
     ⟨[get_raw_url dupHit], [], [], [get_raw_url dupHit]⟩ dupHit (by simp),
   seen_urls_dedup_invariant.2.1 (fun _ => none) (fun _ => []) false emptyWorkerState dupHit,
   seen_urls_dedup_invariant.2.2 (fun _ => none) (fun _ => []) false emptyWorkerState
     dupHit dupHit rfl (by simp [emptyWorkerState])⟩

theorem processMatches_cons_skip (source : Bool) (origin m : Str) (ms lh : List Str)
    (st : WorkerState) (hm : ¬ (m ≠ [] ∧ m ∉ lh)) :
    processMatches source origin (m :: ms) lh st = processMatches source origin ms lh st := by
  simp only [processMatches]
  rw [if_neg hm]

theorem processMatches_true_cons_new (origin m : Str) (ms lh : List Str) (st : WorkerState)
    (hm : m ≠ [] ∧ m ∉ lh) :
    processMatches true origin (m :: ms) lh st
      = processMatches true origin ms (lh ++ [m])
          { st with history := st.history ++ [m],
                    emissions := st.emissions ++ [(some origin, m)] } := by
  simp only [processMatches]
  rw [if_pos hm]
  simp only [if_true]

theorem processMatches_false_cons_new_old (origin m : Str) (ms lh : List Str) (st : WorkerState)
    (hm : m ≠ [] ∧ m ∉ lh) (hh : m ∈ st.history) :
    processMatches false origin (m :: ms) lh st
      = processMatches false origin ms (lh ++ [m]) st := by
  simp only [processMatches]
  rw [if_pos hm, if_neg (by simp : ¬ (false = true)), if_neg (not_not_intro hh)]

theorem processMatches_false_cons_new_fresh (origin m : Str) (ms lh : List Str) (st : WorkerState)
    (hm : m ≠ [] ∧ m ∉ lh) (hh : m ∉ st.history) :
    processMatches false origin (m :: ms) lh st
      = processMatches false origin ms (lh ++ [m])
          { st with history := st.history ++ [m],
                    emissions := st.emissions ++ [(none, m)] } := by
  simp only [processMatches]
  rw [if_pos hm, if_neg (by simp : ¬ (false = true)), if_pos hh]

theorem extract_fresh_none (fetch : Str → Option Str) (findall : Str → List Str)
    (source : Bool) (st : WorkerState) (h : Str)
    (hmem : get_raw_url h ∉ st.historyUrls)
    (hf : fetch (get_raw_url h) = none) :
    extract_subdomains_from_code fetch findall source st h
      = { st with historyUrls := st.historyUrls ++ [get_raw_url h],
                  fetched := st.fetched ++ [get_raw_url h] } := by
  simp only [extract_subdomains_from_code, hf]
  rw [if_neg hmem]

theorem extract_fresh_empty (fetch : Str → Option Str) (findall : Str → List Str)
    (source : Bool) (st : WorkerState) (h : Str)
    (hmem : get_raw_url h ∉ st.historyUrls)
    (hf : fetch (get_raw_url h) = some []) :
    extract_subdomains_from_code fetch findall source st h
      = { st with historyUrls := st.historyUrls ++ [get_raw_url h],
                  fetched := st.fetched ++ [get_raw_url h] } := by
  simp only [extract_subdomains_from_code, hf]
  rw [if_neg hmem]
  simp

theorem extract_fresh_some (fetch : Str → Option Str) (findall : Str → List Str)
    (source : Bool) (st : WorkerState) (h code : Str)
    (hmem : get_raw_url h ∉ st.historyUrls)
    (hf : fetch (get_raw_url h) = some code) (hcode : code ≠ []) :
    extract_subdomains_from_code fetch findall source st h
      = processMatches source h ((findall code).map normalizeMatch) []
          { st with historyUrls := st.historyUrls ++ [get_raw_url h],
                    fetched := st.fetched ++ [get_raw_url h] } := by
  simp only [extract_subdomains_from_code, hf]
  rw [if_neg hmem, if_neg hcode]

theorem mem_newSubs : ∀ ms lh s, s ∈ newSubs ms lh ↔ s ≠ [] ∧ s ∈ ms ∧ s ∉ lh := by
  intro ms
  induction ms with
  | nil => intro lh s; simp [newSubs]
  | cons m ms ih =>
    intro lh s
    by_cases hm : m ≠ [] ∧ m ∉ lh
    · simp only [newSubs, if_pos hm, List.mem_cons]
      constructor
      · rintro (rfl | hs)
        · exact ⟨hm.1, by simp, hm.2⟩
        · have h3 := (ih _ s).mp hs
          refine ⟨h3.1, by simp [h3.2.1], ?_⟩
          intro hlh
          exact h3.2.2 (by simp [hlh])
      · rintro ⟨hne, hmem, hnlh⟩
        by_cases hsm : s = m
        · left; exact hsm
        · right
          rcases hmem with e | hs
          · exact absurd e hsm
          · refine (ih _ s).mpr ⟨hne, hs, ?_⟩
            simp only [List.mem_append, List.mem_singleton]
            rintro (h | h)
            · exact hnlh h
            · exact hsm h
    · simp only [newSubs, if_neg hm]
      rw [ih lh s]
      constructor
      · rintro ⟨h1, h2, h3⟩
        exact ⟨h1, by simp [h2], h3⟩
      · rintro ⟨h1, h2, h3⟩
        rcases List.mem_cons.mp h2 with e | hs
        · subst e
          rcases not_and_or.mp hm with hbad | hbad
          · exact absurd h1 (not_not.mp (by simpa using hbad))
          · exact absurd (not_not.mp hbad) h3
        · exact ⟨h1, hs, h3⟩

theorem newSubs_nodup : ∀ ms lh, (newSubs ms lh).Nodup := by
  intro ms
  induction ms with
  | nil => intro lh; simp [newSubs]
  | cons m ms ih =>
    intro lh
    by_cases hm : m ≠ [] ∧ m ∉ lh
    · simp only [newSubs, if_pos hm]
      refine List.nodup_cons.mpr ⟨?_, ih _⟩
      intro hmem
      exact ((mem_newSubs ms (lh ++ [m]) m).mp hmem).2.2 (by simp)
    · simp only [newSubs, if_neg hm]
      exact ih lh

theorem processMatches_true_spec (origin : Str) :
    ∀ ms lh (st : WorkerState), processMatches true origin ms lh st =
      ⟨st.historyUrls, st.history ++ newSubs ms lh,
       st.emissions ++ (newSubs ms lh).map (fun m => (some origin, m)), st.fetched⟩ := by
  intro ms
  induction ms with
  | nil => intro lh st; simp [processMatches, newSubs]
  | cons m ms ih =>
    intro lh st
    by_cases hm : m ≠ [] ∧ m ∉ lh
    · rw [processMatches_true_cons_new origin m ms lh st hm, ih]
      simp only [newSubs, if_pos hm]
      simp
    · rw [processMatches_cons_skip true origin m ms lh st hm, ih]
      simp only [newSubs, if_neg hm]

theorem countOcc_append {α : Type} [DecidableEq α] (a : α) :
    ∀ l₁ l₂ : List α, countOcc a (l₁ ++ l₂) = countOcc a l₁ + countOcc a l₂ := by
  intro l₁ l₂
  induction l₁ with
  | nil => simp [countOcc]
  | cons b l ih => simp [countOcc, ih]; omega

theorem countOcc_eq_zero_of_not_mem {α : Type} [DecidableEq α] (a : α) :
    ∀ l : List α, a ∉ l → countOcc a l = 0 := by
  intro l
  induction l with
  | nil => intro _; rfl
  | cons b l ih =>
    intro h
    have hb : b ≠ a := fun e => h (by simp [e])
    simp only [countOcc, if_neg hb]
    rw [ih (fun hm => h (by simp [hm]))]

theorem countOcc_eq_one_of_nodup_mem {α : Type} [DecidableEq α] (a : α) :
    ∀ l : List α, l.Nodup → a ∈ l → countOcc a l = 1 := by
  intro l
  induction l with
  | nil => intro _ h; simp at h
  | cons b l ih =>
    intro hnd hmem
    rcases List.mem_cons.mp hmem with e | hm
    · subst e
      simp only [countOcc, if_pos rfl]
      rw [countOcc_eq_zero_of_not_mem a l (List.nodup_cons.mp hnd).1]
      simp
    · have hb : b ≠ a := by
        intro e
        exact (List.nodup_cons.mp hnd).1 (e ▸ hm)
      simp only [countOcc, if_neg hb]
      rw [ih (List.nodup_cons.mp hnd).2 hm]

theorem countOcc_pair_map_self (o s : Str) :
    ∀ news : List Str,
      countOcc ((some o : Option Str), s) (news.map (fun m => ((some o : Option Str), m)))
        = countOcc s news := by
  intro news
  induction news with
  | nil => rfl
  | cons m news ih =>
    by_cases hm : m = s
    · simp only [List.map_cons, countOcc, ih]
      rw [if_pos (by rw [hm]), if_pos hm]
    · simp only [List.map_cons, countOcc, ih]
      rw [if_neg (fun e => hm (by simpa using congrArg Prod.snd e)), if_neg hm]

theorem countOcc_pair_map_ne (o o' s : Str) (h : o ≠ o') :
    ∀ news : List Str,
      countOcc ((some o : Option Str), s) (news.map (fun m => ((some o' : Option Str), m)))
        = 0 := by
  intro news
  induction news with
  | nil => rfl
  | cons m news ih =>
    simp only [List.map_cons, countOcc, ih]
    rw [if_neg (fun e => h (Option.some.inj (congrArg Prod.fst e)).symm)]

/-- C5: in source mode a subdomain found in two different fetched files is
emitted once per file, tagged with that file's origin URL (so twice in
total), while repeated occurrences inside one file are emitted only once
for that file: the hypotheses only require `s` to be among each file's
matches (possibly many times), yet each per-file emission count is 1. -/
theorem source_mode_emitted_per_file (fetch : Str → Option Str) (findall : Str → List Str)
    (h1 h2 s c1 c2 : Str)
    (hurl : get_raw_url h1 ≠ get_raw_url h2)
    (hf1 : fetch (get_raw_url h1) = some c1) (hc1 : c1 ≠ [])
    (hf2 : fetch (get_raw_url h2) = some c2) (hc2 : c2 ≠ [])
    (hs : s ≠ [])
    (hm1 : s ∈ (findall c1).map normalizeMatch)
    (hm2 : s ∈ (findall c2).map normalizeMatch) :
    countOcc ((some h1 : Option Str), s)
        (processHits fetch findall true emptyWorkerState [h1, h2]).emissions = 1 ∧
    countOcc ((some h2 : Option Str), s)
        (processHits fetch findall true emptyWorkerState [h1, h2]).emissions = 1 := by
  have hne : h1 ≠ h2 := fun e => hurl (by rw [e])
  have e1 : extract_subdomains_from_code fetch findall true emptyWorkerState h1
      = ⟨[get_raw_url h1], newSubs ((findall c1).map normalizeMatch) [],
         (newSubs ((findall c1).map normalizeMatch) []).map (fun m => (some h1, m)),
         [get_raw_url h1]⟩ := by
    rw [extract_fresh_some fetch findall true emptyWorkerState h1 c1
        (by simp [emptyWorkerState]) hf1 hc1]
    rw [processMatches_true_spec]
    simp [emptyWorkerState]
  have hnotmem2 : get_raw_url h2 ∉ [get_raw_url h1] := by
    intro hm
    exact hurl (List.mem_singleton.mp hm).symm
  have e2 : processHits fetch findall true emptyWorkerState [h1, h2]
      = ⟨[get_raw_url h1, get_raw_url h2],
         newSubs ((findall c1).map normalizeMatch) []
           ++ newSubs ((findall c2).map normalizeMatch) [],
         (newSubs ((findall c1).map normalizeMatch) []).map (fun m => (some h1, m))
           ++ (newSubs ((findall c2).map normalizeMatch) []).map (fun m => (some h2, m)),
         [get_raw_url h1, get_raw_url h2]⟩ := by
    show extract_subdomains_from_code fetch findall true
        (extract_subdomains_from_code fetch findall true emptyWorkerState h1) h2 = _
    rw [e1]
    rw [extract_fresh_some fetch findall true _ h2 c2 hnotmem2 hf2 hc2]
    rw [processMatches_true_spec]
    simp
  rw [e2]
  constructor
  · show countOcc ((some h1 : Option Str), s) _ = 1
    dsimp only
    rw [countOcc_append, countOcc_pair_map_self, countOcc_pair_map_ne h1 h2 s hne]
    rw [countOcc_eq_one_of_nodup_mem s _ (newSubs_nodup _ _)
      ((mem_newSubs _ _ s).mpr ⟨hs, hm1, by simp⟩)]
  · show countOcc ((some h2 : Option Str), s) _ = 1
    dsimp only
    rw [countOcc_append, countOcc_pair_map_self, countOcc_pair_map_ne h2 h1 s (Ne.symm hne)]
    rw [countOcc_eq_one_of_nodup_mem s _ (newSubs_nodup _ _)
      ((mem_newSubs _ _ s).mpr ⟨hs, hm2, by simp⟩)]

theorem source_mode_emitted_per_file_witness :
    countOcc ((some cHit1 : Option Str), str "sub.example.com")
        (processHits cFetch cFindall true emptyWorkerState [cHit1, cHit2]).emissions = 1 ∧
    countOcc ((some cHit2 : Option Str), str "sub.example.com")
        (processHits cFetch cFindall true emptyWorkerState [cHit1, cHit2]).emissions = 1 :=
  source_mode_emitted_per_file cFetch cFindall cHit1 cHit2 (str "sub.example.com")
    (str "A") (str "B") (by decide) (by decide) (by decide) (by decide) (by decide)
    (by decide) (by decide) (by decide)

theorem processMatches_false_inv (origin : Str) :
    ∀ ms lh (st : WorkerState),
      (∀ x ∈ lh, x ∈ st.history) →
      st.history.Nodup →
      st.emissions.map Prod.snd = st.history →
      ((processMatches false origin ms lh st).history.Nodup ∧
       (processMatches false origin ms lh st).emissions.map Prod.snd
          = (processMatches false origin ms lh st).history ∧
       (∀ s, s ∈ ms → s ≠ [] → s ∈ (processMatches false origin ms lh st).history) ∧
       (∀ x ∈ st.history, x ∈ (processMatches false origin ms lh st).history)) := by
  intro ms
  induction ms with
  | nil =>
    intro lh st _ hnd hsnd
    exact ⟨hnd, hsnd, by simp, fun x hx => hx⟩
  | cons m ms ih =>
    intro lh st hlh hnd hsnd
    by_cases hm : m ≠ [] ∧ m ∉ lh
    · by_cases hh : m ∈ st.history
      · rw [processMatches_false_cons_new_old origin m ms lh st hm hh]
        have hlh2 : ∀ x ∈ lh ++ [m], x ∈ st.history := by
          intro x hx
          rcases List.mem_append.mp hx with hx | hx
          · exact hlh x hx
          · rw [List.mem_singleton.mp hx]; exact hh
        obtain ⟨a, b, c, d⟩ := ih (lh ++ [m]) st hlh2 hnd hsnd
        refine ⟨a, b, ?_, d⟩
        intro s hs hsne
        rcases List.mem_cons.mp hs with e | hs
        · exact d s (e ▸ hh)
        · exact c s hs hsne
      · rw [processMatches_false_cons_new_fresh origin m ms lh st hm hh]
        have hlh2 : ∀ x ∈ lh ++ [m],
            x ∈ ({ st with history := st.history ++ [m],
                           emissions := st.emissions ++ [(none, m)] } : WorkerState).history := by
          intro x hx
          rcases List.mem_append.mp hx with hx | hx
          · simp [hlh x hx]
          · simp [List.mem_singleton.mp hx]
        have hnd2 : (st.history ++ [m]).Nodup := by
          simp [List.nodup_append, hnd, hh]
        have hsnd2 : (st.emissions ++ [((none : Option Str), m)]).map Prod.snd
            = st.history ++ [m] := by
          simp [hsnd]
        obtain ⟨a, b, c, d⟩ := ih (lh ++ [m]) _ hlh2 hnd2 hsnd2
        refine ⟨a, b, ?_, ?_⟩
        · intro s hs hsne
          rcases List.mem_cons.mp hs with e | hs
          · exact d s (by simp [e])
          · exact c s hs hsne
        · intro x hx
          exact d x (by simp [hx])
    · rw [processMatches_cons_skip false origin m ms lh st hm]
      obtain ⟨a, b, c, d⟩ := ih lh st hlh hnd hsnd
      refine ⟨a, b, ?_, d⟩
      intro s hs hsne
      rcases List.mem_cons.mp hs with e | hs
      · subst e
        rcases not_and_or.mp hm with hbad | hbad
        · exact absurd (not_not.mp hbad) hsne
        · exact d s (hlh s (not_not.mp hbad))
      · exact c s hs hsne

theorem extract_false_inv (fetch : Str → Option Str) (findall : Str → List Str)
    (st : WorkerState) (h : Str)
    (hnd : st.history.Nodup)
    (hsnd : st.emissions.map Prod.snd = st.history)
    (hcomp : ∀ u ∈ st.fetched, ∀ s, AppearsIn fetch findall s u → s ∈ st.history) :
    (extract_subdomains_from_code fetch findall false st h).history.Nodup ∧
    (extract_subdomains_from_code fetch findall false st h).emissions.map Prod.snd
        = (extract_subdomains_from_code fetch findall false st h).history ∧
    (∀ u ∈ (extract_subdomains_from_code fetch findall false st h).fetched, ∀ s,
        AppearsIn fetch findall s u
          → s ∈ (extract_subdomains_from_code fetch findall false st h).history) := by
  by_cases hmem : get_raw_url h ∈ st.historyUrls
  · rw [extract_seen_skip fetch findall false st h hmem]
    exact ⟨hnd, hsnd, hcomp⟩
  · cases hfu : fetch (get_raw_url h) with
    | none =>
      rw [extract_fresh_none fetch findall false st h hmem hfu]
      refine ⟨hnd, hsnd, ?_⟩
      intro u hu s happ
      rcases List.mem_append.mp hu with hu | hu
      · exact hcomp u hu s happ
      · rw [List.mem_singleton.mp hu] at happ
        rcases happ with ⟨_, c, hc, _, _⟩
        rw [hfu] at hc
        cases hc
    | some code =>
      by_cases hcode : code = []
      · subst hcode
        rw [extract_fresh_empty fetch findall false st h hmem hfu]
        refine ⟨hnd, hsnd, ?_⟩
        intro u hu s happ
        rcases List.mem_append.mp hu with hu | hu
        · exact hcomp u hu s happ
        · rw [List.mem_singleton.mp hu] at happ
          rcases happ with ⟨_, c, hc, hcne, _⟩
          rw [hfu] at hc
          exact absurd (Option.some.inj hc).symm hcne
      · rw [extract_fresh_some fetch findall false st h code hmem hfu hcode]
        obtain ⟨a, b, c, d⟩ := processMatches_false_inv h ((findall code).map normalizeMatch) []
          { st with historyUrls := st.historyUrls ++ [get_raw_url h],
                    fetched := st.fetched ++ [get_raw_url h] }
          (by intro x hx; simp at hx) hnd hsnd
        refine ⟨a, b, ?_⟩
        intro u hu s happ
        rw [processMatches_fetched] at hu
        rcases List.mem_append.mp hu with hu | hu
        · exact d s (hcomp u hu s happ)
        · rw [List.mem_singleton.mp hu] at happ
          rcases happ with ⟨hsne, cc, hcc, _, hmm⟩
          rw [hfu] at hcc
          rw [← Option.some.inj hcc] at hmm
          exact c s hmm hsne

theorem processHits_false_inv (fetch : Str → Option Str) (findall : Str → List Str) :
    ∀ hits (st : WorkerState),
      st.history.Nodup →
      st.emissions.map Prod.snd = st.history →
      (∀ u ∈ st.fetched, ∀ s, AppearsIn fetch findall s u → s ∈ st.history) →
      ((processHits fetch findall false st hits).history.Nodup ∧
       (processHits fetch findall false st hits).emissions.map Prod.snd
          = (processHits fetch findall false st hits).history ∧
       (∀ u ∈ (processHits fetch findall false st hits).fetched, ∀ s,
          AppearsIn fetch findall s u
            → s ∈ (processHits fetch findall false st hits).history)) := by
  intro hits
  induction hits with
  | nil => intro st a b c; exact ⟨a, b, c⟩
  | cons x hits ih =>
    intro st a b c
    obtain ⟨a1, b1, c1⟩ := extract_false_inv fetch findall st x a b c
    exact ih (extract_subdomains_from_code fetch findall false st x) a1 b1 c1

/-- C4: in non-source mode, a (normalized, nonempty) subdomain appearing in
the matches of two or more different fetched files during one run is
recorded into SubdomainHistory and emitted exactly once across the whole
run (modelled sequentially over an arbitrary list of hits). -/
theorem nonsource_subdomain_emitted_once (fetch : Str → Option Str) (findall : Str → List Str)
    (hits : List Str) (s : Str)
    (happ : ∃ u₁ u₂,
        u₁ ∈ (processHits fetch findall false emptyWorkerState hits).fetched ∧
        u₂ ∈ (processHits fetch findall false emptyWorkerState hits).fetched ∧
        u₁ ≠ u₂ ∧ AppearsIn fetch findall s u₁ ∧ AppearsIn fetch findall s u₂) :
    s ∈ (processHits fetch findall false emptyWorkerState hits).history ∧
    countOcc s ((processHits fetch findall false emptyWorkerState hits).emissions.map Prod.snd)
      = 1 := by
  obtain ⟨h1, h2, h3⟩ := processHits_false_inv fetch findall hits emptyWorkerState
    List.nodup_nil rfl (by intro u hu; simp [emptyWorkerState] at hu)
  rcases happ with ⟨u₁, u₂, hu₁, _, _, happ₁, _⟩
  have hsmem := h3 u₁ hu₁ s happ₁
  refine ⟨hsmem, ?_⟩
  rw [h2]
  exact countOcc_eq_one_of_nodup_mem s _ h1 hsmem

theorem nonsource_subdomain_emitted_once_witness :
    (∃ u₁ u₂,
        u₁ ∈ (processHits cFetch cFindall false emptyWorkerState [cHit1, cHit2]).fetched ∧
        u₂ ∈ (processHits cFetch cFindall false emptyWorkerState [cHit1, cHit2]).fetched ∧
        u₁ ≠ u₂ ∧ AppearsIn cFetch cFindall (str "sub.example.com") u₁ ∧
        AppearsIn cFetch cFindall (str "sub.example.com") u₂) ∧
    (str "sub.example.com"
        ∈ (processHits cFetch cFindall false emptyWorkerState [cHit1, cHit2]).history ∧
      countOcc (str "sub.example.com")
        ((processHits cFetch cFindall false emptyWorkerState [cHit1, cHit2]).emissions.map
          Prod.snd) = 1) := by
  have hyp : ∃ u₁ u₂,
      u₁ ∈ (processHits cFetch cFindall false emptyWorkerState [cHit1, cHit2]).fetched ∧
      u₂ ∈ (processHits cFetch cFindall false emptyWorkerState [cHit1, cHit2]).fetched ∧
      u₁ ≠ u₂ ∧ AppearsIn cFetch cFindall (str "sub.example.com") u₁ ∧
      AppearsIn cFetch cFindall (str "sub.example.com") u₂ :=
    ⟨get_raw_url cHit1, get_raw_url cHit2, by decide, by decide, by decide,
     ⟨by decide, str "A", by decide, by decide, by decide⟩,
     ⟨by decide, str "B", by decide, by decide, by decide⟩⟩
  exact ⟨hyp, nonsource_subdomain_emitted_once cFetch cFindall [cHit1, cHit2]
    (str "sub.example.com") hyp⟩

/-- C1 (amended): every request the client issues (the original and all
reissues) is identical — same credential, query, page, sort and order; at
least one request is issued; on a non-qualifying response the client
returns that body after exactly one request; and on each qualifying 403
it reissues recursively, adding one request per consecutive qualifying
403 — so it can retry more than once per original call (see the
counterexample). -/
theorem rate_limit_retry_unbounded :
    (∀ (token search : Str) (page : Nat) (sort order : Str) (now : Int)
        (resps : List HttpResp),
      ∀ r ∈ (github_api_search_code token search page sort order now resps).2,
        r = ⟨token, search, page, sort, order⟩) ∧
    (∀ (token search : Str) (page : Nat) (sort order : Str) (now : Int)
        (resps : List HttpResp),
      1 ≤ (github_api_search_code token search page sort order now resps).2.length) ∧
    (∀ (token search : Str) (page : Nat) (sort order : Str) (now : Int)
        (resp : HttpResp) (rest : List HttpResp),
      qualifiesRetry now resp = false →
      github_api_search_code token search page sort order now (resp :: rest)
        = (resp.body, [⟨token, search, page, sort, order⟩])) ∧
    (∀ (token search : Str) (page : Nat) (sort order : Str) (now : Int)
        (resp : HttpResp) (rest : List HttpResp) (reset : Int),
      resp.status = 403 → resp.rateLimitReset = some reset →
      0 < reset - now → reset - now < 3600 →
      (github_api_search_code token search page sort order now (resp :: rest)).2.length
        = (github_api_search_code token search page sort order
            (now + (reset - now) + 1) rest).2.length + 1) := by
  refine ⟨?_, ?_, ?_, ?_⟩
  · intro token search page sort order now resps
    induction resps generalizing now with
    | nil =>
      intro r hr
      simpa [github_api_search_code] using hr
    | cons resp rest ih =>
      intro r hr
      by_cases hst : resp.status = 403
      · cases hres : resp.rateLimitReset with
        | none =>
          simp only [github_api_search_code, if_pos hst, hres, List.mem_singleton] at hr
          exact hr
        | some reset =>
          by_cases hcond : 0 < reset - now ∧ reset - now < 3600
          · simp only [github_api_search_code, if_pos hst, hres, if_pos hcond,
              List.mem_cons] at hr
            rcases hr with rfl | hr
            · rfl
            · exact ih (now + (reset - now) + 1) r hr
          · simp only [github_api_search_code, if_pos hst, hres, if_neg hcond,
              List.mem_singleton] at hr
            exact hr
      · simp only [github_api_search_code, if_neg hst, List.mem_singleton] at hr
        exact hr
  · intro token search page sort order now resps
    cases resps with
    | nil => simp [github_api_search_code]
    | cons resp rest =>
      by_cases hst : resp.status = 403
      · cases hres : resp.rateLimitReset with
        | none =>
          simp only [github_api_search_code, if_pos hst, hres, List.length_singleton]
          exact le_rfl
        | some reset =>
          by_cases hcond : 0 < reset - now ∧ reset - now < 3600
          · simp only [github_api_search_code, if_pos hst, hres, if_pos hcond,
              List.length_cons]
            omega
          · simp only [github_api_search_code, if_pos hst, hres, if_neg hcond,
              List.length_singleton]
            exact le_rfl
      · simp only [github_api_search_code, if_neg hst, List.length_singleton]
        exact le_rfl
  · intro token search page sort order now resp rest hq
    by_cases hst : resp.status = 403
    · cases hres : resp.rateLimitReset with
      | none => simp only [github_api_search_code, if_pos hst, hres]
      | some reset =>
        have hcond : ¬ (0 < reset - now ∧ reset - now < 3600) := by
          rintro ⟨hc1, hc2⟩
          simp [qualifiesRetry, hst, hres, hc1, hc2] at hq
        simp only [github_api_search_code, if_pos hst, hres, if_neg hcond]
    · simp only [github_api_search_code, if_neg hst]
  · intro token search page sort order now resp rest reset hst hres hc1 hc2
    simp only [github_api_search_code, if_pos hst, hres,
      if_pos (show 0 < reset - now ∧ reset - now < 3600 from ⟨hc1, hc2⟩),
      List.length_cons]

/-- C1 counterexample: with two consecutive qualifying 403 responses the
client issues three requests for one original call — it retried twice,
refuting "it sleeps ... and then reissues the identical request exactly
once before returning a result; it never retries more than once per
original call" (which caps the issued requests at two). -/
theorem rate_limit_retry_twice_cex :
    (github_api_search_code (str "t") (str "q") 1 (str "indexed") (str "desc")
        0 cexResps).2.length = 3 ∧
    ¬ ((github_api_search_code (str "t") (str "q") 1 (str "indexed") (str "desc")
        0 cexResps).2.length ≤ 2) ∧
    (github_api_search_code (str "t") (str "q") 1 (str "indexed") (str "desc")
        0 cexResps).1 = some cexBody := by decide

theorem rate_limit_retry_unbounded_witness :
    (∀ r ∈ (github_api_search_code (str "t") (str "q") 1 (str "indexed") (str "desc")
        0 cexResps).2, r = ⟨str "t", str "q", 1, str "indexed", str "desc"⟩) ∧
    1 ≤ (github_api_search_code (str "t") (str "q") 1 (str "indexed") (str "desc")
        0 cexResps).2.length ∧
    (qualifiesRetry 0 ⟨500, none, none⟩ = false ∧
      github_api_search_code (str "t") (str "q") 1 (str "indexed") (str "desc")
          0 [⟨500, none, none⟩]
        = (none, [⟨str "t", str "q", 1, str "indexed", str "desc"⟩])) ∧
    (github_api_search_code (str "t") (str "q") 1 (str "indexed") (str "desc")
        0 (⟨403, some 5, none⟩ :: [⟨200, none, some cexBody⟩])).2.length
      = (github_api_search_code (str "t") (str "q") 1 (str "indexed") (str "desc")
          (0 + (5 - 0) + 1) [⟨200, none, some cexBody⟩]).2.length + 1 :=
  ⟨rate_limit_retry_unbounded.1 (str "t") (str "q") 1 (str "indexed") (str "desc") 0 cexResps,
   rate_limit_retry_unbounded.2.1 (str "t") (str "q") 1 (str "indexed") (str "desc") 0 cexResps,
   ⟨by decide,
    rate_limit_retry_unbounded.2.2.1 (str "t") (str "q") 1 (str "indexed") (str "desc")
      0 ⟨500, none, none⟩ [] (by decide)⟩,
   rate_limit_retry_unbounded.2.2.2 (str "t") (str "q") 1 (str "indexed") (str "desc")
     0 ⟨403, some 5, none⟩ [⟨200, none, some cexBody⟩] 5 rfl rfl (by decide) (by decide)⟩

theorem strategyLoop_extends (oracle : ApiRequest → Option SearchJson) (pick : List Str → Str)
    (q sort order : Str) :
    ∀ (fuel page : Nat) (available : List Str) (acc : List ApiRequest),
      ∃ t, strategyLoop oracle pick q sort order fuel page available acc = acc ++ t := by
  intro fuel
  induction fuel with
  | zero =>
    intro page available acc
    exact ⟨[], by simp [strategyLoop]⟩
  | succ fuel ih =>
    intro page available acc
    by_cases hie : available.isEmpty = true
    · exact ⟨[], by simp [strategyLoop, hie]⟩
    · simp only [strategyLoop, if_neg hie]
      cases horacle : oracle ⟨pick available, q, page, sort, order⟩ with
      | none =>
        obtain ⟨t, ht⟩ := ih page (available.erase (pick available))
          (acc ++ [⟨pick available, q, page, sort, order⟩])
        exact ⟨[⟨pick available, q, page, sort, order⟩] ++ t, by rw [ht]; simp⟩
      | some j =>
        dsimp only
        by_cases herr : (j.hasDocumentationUrl || j.hasMessage) = true
        · rw [if_pos herr]
          obtain ⟨t, ht⟩ := ih page (available.erase (pick available))
            (acc ++ [⟨pick available, q, page, sort, order⟩])
          exact ⟨[⟨pick available, q, page, sort, order⟩] ++ t, by rw [ht]; simp⟩
        · rw [if_neg herr]
          cases hitems : j.items with
          | none => exact ⟨[⟨pick available, q, page, sort, order⟩], rfl⟩
          | some items =>
            cases items with
            | nil => exact ⟨[⟨pick available, q, page, sort, order⟩], rfl⟩
            | cons a as =>
              obtain ⟨t, ht⟩ := ih (page + 1) available
                (acc ++ [⟨pick available, q, page, sort, order⟩])
              exact ⟨[⟨pick available, q, page, sort, order⟩] ++ t, by rw [ht]; simp⟩

theorem strategyLoop_mem_acc (oracle : ApiRequest → Option SearchJson) (pick : List Str → Str)
    (q sort order : Str) (fuel page : Nat) (available : List Str) (acc : List ApiRequest)
    (x : ApiRequest) (hx : x ∈ acc) :
    x ∈ strategyLoop oracle pick q sort order fuel page available acc := by
  obtain ⟨t, ht⟩ := strategyLoop_extends oracle pick q sort order fuel page available acc
  rw [ht]
  exact List.mem_append_left t hx

theorem strategyLoop_first_mem (oracle : ApiRequest → Option SearchJson) (pick : List Str → Str)
    (q sort order : Str) (fuel page : Nat) (available : List Str) (acc : List ApiRequest)
    (hav : ¬ available.isEmpty = true) :
    (⟨pick available, q, page, sort, order⟩ : ApiRequest)
      ∈ strategyLoop oracle pick q sort order (fuel + 1) page available acc := by
  simp only [strategyLoop, if_neg hav]
  cases horacle : oracle ⟨pick available, q, page, sort, order⟩ with
  | none => exact strategyLoop_mem_acc oracle pick q sort order fuel page _ _ _ (by simp)
  | some j =>
    dsimp only
    by_cases herr : (j.hasDocumentationUrl || j.hasMessage) = true
    · rw [if_pos herr]
      exact strategyLoop_mem_acc oracle pick q sort order fuel page _ _ _ (by simp)
    · rw [if_neg herr]
      cases hitems : j.items with
      | none => simp
      | some items =>
        cases items with
        | nil => simp
        | cons a as =>
          exact strategyLoop_mem_acc oracle pick q sort order fuel (page + 1) _ _ _ (by simp)

theorem strategyLoop_search_eq (oracle : ApiRequest → Option SearchJson) (pick : List Str → Str)
    (q sort order : Str) :
    ∀ (fuel page : Nat) (available : List Str) (acc : List ApiRequest),
      (∀ r ∈ acc, r.search = q) →
      ∀ r ∈ strategyLoop oracle pick q sort order fuel page available acc, r.search = q := by
  intro fuel
  induction fuel with
  | zero =>
    intro page available acc hacc
    simpa [strategyLoop] using hacc
  | succ fuel ih =>
    intro page available acc hacc
    by_cases hie : available.isEmpty = true
    · simpa [strategyLoop, hie] using hacc
    · simp only [strategyLoop, if_neg hie]
      have hacc2 : ∀ r ∈ acc ++ [(⟨pick available, q, page, sort, order⟩ : ApiRequest)],
          r.search = q := by
        intro r hr
        rcases List.mem_append.mp hr with hr | hr
        · exact hacc r hr
        · rw [List.mem_singleton.mp hr]
      cases horacle : oracle ⟨pick available, q, page, sort, order⟩ with
      | none => exact ih page _ _ hacc2
      | some j =>
        dsimp only
        by_cases herr : (j.hasDocumentationUrl || j.hasMessage) = true
        · rw [if_pos herr]
          exact ih page _ _ hacc2
        · rw [if_neg herr]
          cases hitems : j.items with
          | none => exact hacc2
          | some items =>
            cases items with
            | nil => exact hacc2
            | cons a as => exact ih (page + 1) _ _ hacc2

theorem foldl_strategy_mem (oracle : ApiRequest → Option SearchJson) (pick : List Str → Str)
    (q : Str) (fuel : Nat) (tokens : List Str) :
    ∀ (l : List (Str × Str)) (acc : List ApiRequest) (x : ApiRequest), x ∈ acc →
      x ∈ l.foldl
        (fun acc2 so => strategyLoop oracle pick q so.1 so.2 fuel 1 tokens acc2) acc := by
  intro l
  induction l with
  | nil => intro acc x hx; exact hx
  | cons so l ih =>
    intro acc x hx
    exact ih _ x (strategyLoop_mem_acc oracle pick q so.1 so.2 fuel 1 tokens acc x hx)

theorem foldl_strategy_first (oracle : ApiRequest → Option SearchJson) (pick : List Str → Str)
    (q : Str) (fuel : Nat) (tokens : List Str) (htok : ¬ tokens.isEmpty = true) :
    ∀ (l : List (Str × Str)) (acc : List ApiRequest), ∀ so ∈ l,
      (⟨pick tokens, q, 1, so.1, so.2⟩ : ApiRequest)
        ∈ l.foldl
          (fun acc2 so2 => strategyLoop oracle pick q so2.1 so2.2 (fuel + 1) 1 tokens acc2)
          acc := by
  intro l
  induction l with
  | nil => intro acc so hso; simp at hso
  | cons so0 l ih =>
    intro acc so hso
    rcases List.mem_cons.mp hso with e | hso
    · subst e
      exact foldl_strategy_mem oracle pick q (fuel + 1) tokens l _ _
        (strategyLoop_first_mem oracle pick q so.1 so.2 fuel 1 tokens acc htok)
    · exact ih _ so hso

theorem foldl_strategy_search_eq (oracle : ApiRequest → Option SearchJson)
    (pick : List Str → Str) (q : Str) (fuel : Nat) (tokens : List Str) :
    ∀ (l : List (Str × Str)) (acc : List ApiRequest),
      (∀ r ∈ acc, r.search = q) →
      ∀ r ∈ l.foldl
          (fun acc2 so => strategyLoop oracle pick q so.1 so.2 fuel 1 tokens acc2) acc,
        r.search = q := by
  intro l
  induction l with
  | nil => intro acc hacc; exact hacc
  | cons so l ih =>
    intro acc hacc
    exact ih _ (strategyLoop_search_eq oracle pick q so.1 so.2 fuel 1 tokens acc hacc)

/-- C3 (amended): the live credential pool is re-initialized to a fresh
copy of the full token list at the start of each of the three strategies
(`available_tokens = tokens.copy()` inside the per-strategy loop), so a
credential discarded because of errors during one strategy is available
again for every subsequent strategy: regardless of what happened in
earlier strategies, each strategy's first request uses a token picked
from the full original list. -/
theorem token_pool_reset_per_strategy (oracle : ApiRequest → Option SearchJson)
    (pick : List Str → Str) (tldParse : Str → HostParse) (tokens : List Str)
    (domain : Str) (extend : Bool) (fuel : Nat) (htok : tokens ≠ []) :
    ∀ so ∈ sortOrders,
      (⟨pick tokens, (setup_search_parameters domain (tldParse domain) extend).1, 1,
          so.1, so.2⟩ : ApiRequest)
        ∈ osgit_sub_run oracle pick tldParse tokens domain extend (fuel + 1) := by
  intro so hso
  have hie : ¬ tokens.isEmpty = true := by
    cases tokens
    · exact absurd rfl htok
    · simp
  unfold osgit_sub_run
  rw [if_neg hie]
  exact foldl_strategy_first oracle pick _ fuel tokens hie sortOrders [] so hso

/-- C3 counterexample: one token, and an oracle that always answers with
an error body (`message` key present), so the token is discarded in every
strategy — yet the trace shows the token is used again by strategies two
and three after being discarded in strategy one.  This refutes "a
credential discarded because of an error during one strategy remains
unavailable for all subsequent strategies of the same run". -/
theorem token_reused_after_discard_cex :
    osgit_sub_run (fun _ => some ⟨false, true, none⟩) (fun l => l.headD [])
        (fun _ => ⟨str "example", str "com"⟩) [str "t"] (str "example.com") false 2
      = [⟨str "t", str "\"example.com\"", 1, str "indexed", str "desc"⟩,
         ⟨str "t", str "\"example.com\"", 1, str "indexed", str "asc"⟩,
         ⟨str "t", str "\"example.com\"", 1, [], str "desc"⟩] := by decide

theorem token_pool_reset_per_strategy_witness :
    ([str "t"] : List Str) ≠ [] ∧
    (str "indexed", str "asc") ∈ sortOrders ∧
    (⟨str "t", str "\"example.com\"", 1, str "indexed", str "asc"⟩ : ApiRequest)
      ∈ osgit_sub_run (fun _ => some ⟨false, true, none⟩) (fun l => l.headD [])
          (fun _ => ⟨str "example", str "com"⟩) [str "t"] (str "example.com") false 2 :=
  ⟨by decide, by decide,
   token_pool_reset_per_strategy (fun _ => some ⟨false, true, none⟩)
     (fun l => l.headD []) (fun _ => ⟨str "example", str "com"⟩) [str "t"]
     (str "example.com") false 1 (by decide) (str "indexed", str "asc") (by decide)⟩

/-- C2 (amended): the run performs no malformed-domain validation: even
when the parsed domain has no discoverable suffix (empty suffix), with at
least one configured token the run does not abort — it issues at least
one search request, and every issued request carries the degenerate query
built from the empty suffix. -/
theorem malformed_domain_no_validation (oracle : ApiRequest → Option SearchJson)
    (pick : List Str → Str) (tldParse : Str → HostParse) (tokens : List Str)
    (domain : Str) (fuel : Nat)
    (hmal : (tldParse domain).suffix = []) (htok : tokens ≠ []) :
    osgit_sub_run oracle pick tldParse tokens domain false (fuel + 1) ≠ [] ∧
    (∀ r ∈ osgit_sub_run oracle pick tldParse tokens domain false (fuel + 1),
      r.search = (setup_search_parameters domain (tldParse domain) false).1) := by
  have hie : ¬ tokens.isEmpty = true := by
    cases tokens
    · exact absurd rfl htok
    · simp
  constructor
  · intro hempty
    have hmem : (⟨pick tokens, (setup_search_parameters domain (tldParse domain) false).1, 1,
        str "indexed", str "desc"⟩ : ApiRequest)
        ∈ osgit_sub_run oracle pick tldParse tokens domain false (fuel + 1) := by
      unfold osgit_sub_run
      rw [if_neg hie]
      exact foldl_strategy_first oracle pick _ fuel tokens hie sortOrders []
        (str "indexed", str "desc") (by simp [sortOrders])
    rw [hempty] at hmem
    exact absurd hmem (List.not_mem_nil _)
  · intro r hr
    unfold osgit_sub_run at hr
    rw [if_neg hie] at hr
    exact foldl_strategy_search_eq oracle pick _ (fuel + 1) tokens sortOrders []
      (by intro r2 hr2; simp at hr2) r hr

/-- C2 counterexample: for a domain whose parse has no suffix the run does
not abort: it issues three search requests (one per strategy before each
token discard), all carrying the degenerate query `"localhost."`.  This
refutes "the run signals a configuration error and aborts before issuing
any network call; no search request is made for such a domain". -/
theorem malformed_domain_requests_cex :
    ((fun (_ : Str) => (⟨str "localhost", ([] : Str)⟩ : HostParse)) (str "localhost")).suffix
        = [] ∧
    osgit_sub_run (fun _ => none) (fun l => l.headD [])
        (fun _ => ⟨str "localhost", []⟩) [str "t"] (str "localhost") false 2
      = [⟨str "t", str "\"localhost.\"", 1, str "indexed", str "desc"⟩,
         ⟨str "t", str "\"localhost.\"", 1, str "indexed", str "asc"⟩,
         ⟨str "t", str "\"localhost.\"", 1, [], str "desc"⟩] :=
  ⟨rfl, by decide⟩

theorem malformed_domain_no_validation_witness :
    ((fun (_ : Str) => (⟨str "localhost", ([] : Str)⟩ : HostParse)) (str "localhost")).suffix
        = [] ∧
    ([str "t"] : List Str) ≠ [] ∧
    osgit_sub_run (fun _ => none) (fun l => l.headD [])
        (fun _ => ⟨str "localhost", []⟩) [str "t"] (str "localhost") false 2 ≠ [] :=
  ⟨rfl, by decide,
   (malformed_domain_no_validation (fun _ => none) (fun l => l.headD [])
      (fun _ => ⟨str "localhost", []⟩) [str "t"] (str "localhost") 1 rfl (by decide)).1⟩

theorem dedupAppend_mem (acc : List Str) (x s : Str) :
    s ∈ dedupAppend acc x ↔ s ∈ acc ∨ s = x := by
  by_cases hx : x ∈ acc
  · simp only [dedupAppend, if_pos hx]
    constructor
    · exact Or.inl
    · rintro (h | rfl)
      · exact h
      · exact hx
  · simp [dedupAppend, if_neg hx]

theorem dedupAppend_nodup (acc : List Str) (x : Str) (h : acc.Nodup) :
    (dedupAppend acc x).Nodup := by
  by_cases hx : x ∈ acc
  · simpa [dedupAppend, if_pos hx] using h
  · simp [dedupAppend, if_neg hx, List.nodup_append, h, hx]

theorem foldl_segStep_mem : ∀ (segs : List Str) (acc : List Str) (s : Str),
    s ∈ segs.foldl segStep acc ↔ s ∈ acc ∨ (s ≠ [] ∧ s ∈ segs) := by
  intro segs
  induction segs with
  | nil => intro acc s; simp
  | cons seg segs ih =>
    intro acc s
    show s ∈ segs.foldl segStep (segStep acc seg) ↔ _
    rw [ih]
    have hstep : s ∈ segStep acc seg ↔ s ∈ acc ∨ (s ≠ [] ∧ s = seg) := by
      by_cases hseg : seg = []
      · subst hseg
        simp only [segStep, if_neg (by simp : ¬ (([] : Str) ≠ []))]
        constructor
        · exact Or.inl
        · rintro (h | ⟨h1, h2⟩)
          · exact h
          · exact absurd h2 h1
      · simp only [segStep, if_pos hseg]
        rw [dedupAppend_mem]
        constructor
        · rintro (h | rfl)
          · exact Or.inl h
          · exact Or.inr ⟨hseg, rfl⟩
        · rintro (h | ⟨_, rfl⟩)
          · exact Or.inl h
          · exact Or.inr rfl
    rw [hstep]
    constructor
    · rintro ((h | ⟨h1, rfl⟩) | ⟨h1, h2⟩)
      · exact Or.inl h
      · exact Or.inr ⟨h1, by simp⟩
      · exact Or.inr ⟨h1, by simp [h2]⟩
    · rintro (h | ⟨h1, h2⟩)
      · exact Or.inl (Or.inl h)
      · rcases List.mem_cons.mp h2 with e | hm
        · exact Or.inl (Or.inr ⟨h1, e⟩)
        · exact Or.inr ⟨h1, hm⟩

theorem foldl_segStep_nodup : ∀ (segs : List Str) (acc : List Str),
    acc.Nodup → (segs.foldl segStep acc).Nodup := by
  intro segs
  induction segs with
  | nil => intro acc h; exact h
  | cons seg segs ih =>
    intro acc h
    refine ih _ ?_
    by_cases hseg : seg ≠ []
    · simpa [segStep, if_pos hseg] using dedupAppend_nodup acc seg h
    · simpa [segStep, if_neg hseg] using h

theorem itemStep_nodup (fullPaths : Bool) (acc : List Str) (item : TreeItem)
    (h : acc.Nodup) : (itemStep fullPaths acc item).Nodup := by
  cases hpath : item.path with
  | none => simpa [itemStep, hpath] using h
  | some p =>
    by_cases hp : p = []
    · simpa [itemStep, hpath, hp] using h
    · cases fullPaths with
      | true => simpa [itemStep, hpath, hp] using dedupAppend_nodup acc p h
      | false =>
        simp only [itemStep, hpath, if_neg hp, if_neg (by simp : ¬ (false = true))]
        exact foldl_segStep_nodup _ _ h

theorem foldl_itemStep_nodup (fullPaths : Bool) : ∀ (items : List TreeItem) (acc : List Str),
    acc.Nodup → (items.foldl (itemStep fullPaths) acc).Nodup := by
  intro items
  induction items with
  | nil => intro acc h; exact h
  | cons item items ih =>
    intro acc h
    exact ih _ (itemStep_nodup fullPaths acc item h)

theorem foldl_itemStep_mem_false : ∀ (items : List TreeItem) (acc : List Str) (s : Str),
    s ∈ items.foldl (itemStep false) acc ↔
      s ∈ acc ∨ (s ≠ [] ∧ ∃ item, item ∈ items ∧
        ∃ p, item.path = some p ∧ p ≠ [] ∧ s ∈ splitSlash p) := by
  intro items
  induction items with
  | nil => intro acc s; simp
  | cons item items ih =>
    intro acc s
    show s ∈ items.foldl (itemStep false) (itemStep false acc item) ↔ _
    rw [ih]
    have hstep : s ∈ itemStep false acc item ↔
        s ∈ acc ∨ (s ≠ [] ∧ ∃ p, item.path = some p ∧ p ≠ [] ∧ s ∈ splitSlash p) := by
      cases hpath : item.path with
      | none => simp [itemStep, hpath]
      | some p =>
        by_cases hp : p = []
        · simp only [itemStep, hpath, if_pos hp]
          constructor
          · exact Or.inl
          · rintro (h | ⟨h1, p2, hp2, hpne, _⟩)
            · exact h
            · exact absurd (Option.some.inj hp2) (by rw [hp]; exact fun e => hpne e.symm)
        · simp only [itemStep, hpath, if_neg hp, if_neg (by simp : ¬ (false = true))]
          rw [foldl_segStep_mem]
          constructor
          · rintro (h | ⟨h1, h2⟩)
            · exact Or.inl h
            · exact Or.inr ⟨h1, p, rfl, hp, h2⟩
          · rintro (h | ⟨h1, p2, hp2, hpne, hmem⟩)
            · exact Or.inl h
            · exact Or.inr ⟨h1, by rwa [Option.some.inj hp2]⟩
    rw [hstep]
    constructor
    · rintro ((h | ⟨h1, hex⟩) | ⟨h1, it, hit, hex⟩)
      · exact Or.inl h
      · exact Or.inr ⟨h1, item, by simp, hex⟩
      · exact Or.inr ⟨h1, it, by simp [hit], hex⟩
    · rintro (h | ⟨h1, it, hit, hex⟩)
      · exact Or.inl (Or.inl h)
      · rcases List.mem_cons.mp hit with e | hit2
        · exact Or.inl (Or.inr ⟨h1, e ▸ hex⟩)
        · exact Or.inr ⟨h1, it, hit2, hex⟩

theorem foldl_itemStep_mem_true : ∀ (items : List TreeItem) (acc : List Str) (s : Str),
    s ∈ items.foldl (itemStep true) acc ↔
      s ∈ acc ∨ (s ≠ [] ∧ ∃ item, item ∈ items ∧ item.path = some s) := by
  intro items
  induction items with
  | nil => intro acc s; simp
  | cons item items ih =>
    intro acc s
    show s ∈ items.foldl (itemStep true) (itemStep true acc item) ↔ _
    rw [ih]
    have hstep : s ∈ itemStep true acc item ↔
        s ∈ acc ∨ (s ≠ [] ∧ item.path = some s) := by
      cases hpath : item.path with
      | none => simp [itemStep, hpath]
      | some p =>
        by_cases hp : p = []
        · simp only [itemStep, hpath, if_pos hp]
          constructor
          · exact Or.inl
          · rintro (h | ⟨h1, h2⟩)
            · exact h
            · exfalso; apply h1; rw [← Option.some.inj h2, hp]
        · simp only [itemStep, hpath, if_neg hp, if_true]
          rw [dedupAppend_mem]
          constructor
          · rintro (h | rfl)
            · exact Or.inl h
            · exact Or.inr ⟨hp, rfl⟩
          · rintro (h | ⟨h1, h2⟩)
            · exact Or.inl h
            · exact Or.inr (Option.some.inj h2).symm
    rw [hstep]
    constructor
    · rintro ((h | ⟨h1, hex⟩) | ⟨h1, it, hit, hex⟩)
      · exact Or.inl h
      · exact Or.inr ⟨h1, item, by simp, hex⟩
      · exact Or.inr ⟨h1, it, by simp [hit], hex⟩
    · rintro (h | ⟨h1, it, hit, hex⟩)
      · exact Or.inl (Or.inl h)
      · rcases List.mem_cons.mp hit with e | hit2
        · exact Or.inl (Or.inr ⟨h1, e ▸ hex⟩)
        · exact Or.inr ⟨h1, it, hit2, hex⟩

/-- C8: for every tree response, segment mode returns the sorted
duplicate-free list of the nonempty slash-separated segments of the
entries' paths, and full-path mode the sorted duplicate-free list of the
(nonempty) full paths; in particular on the entries
["a/b/c", "a/b/d", "a/x"] segment mode yields [a, b, c, d, x] and
full-path mode [a/b/c, a/b/d, a/x], both sorted under the code-point
order. -/
theorem path_extraction_sorted_dedup :
    (∀ items : List TreeItem,
      (List.Sorted (fun a b : Str => strLe a b = true)
          (extract_paths_and_segments (some ⟨some items⟩) false) ∧
        (extract_paths_and_segments (some ⟨some items⟩) false).Nodup ∧
        (∀ s : Str, s ∈ extract_paths_and_segments (some ⟨some items⟩) false ↔
          s ≠ [] ∧ ∃ item, item ∈ items ∧
            ∃ p, item.path = some p ∧ p ≠ [] ∧ s ∈ splitSlash p)) ∧
      (List.Sorted (fun a b : Str => strLe a b = true)
          (extract_paths_and_segments (some ⟨some items⟩) true) ∧
        (extract_paths_and_segments (some ⟨some items⟩) true).Nodup ∧
        (∀ s : Str, s ∈ extract_paths_and_segments (some ⟨some items⟩) true ↔
          s ≠ [] ∧ ∃ item, item ∈ items ∧ item.path = some s))) ∧
    extract_paths_and_segments
        (some ⟨some [⟨some (str "a/b/c")⟩, ⟨some (str "a/b/d")⟩, ⟨some (str "a/x")⟩]⟩) false
      = [str "a", str "b", str "c", str "d", str "x"] ∧
    extract_paths_and_segments
        (some ⟨some [⟨some (str "a/b/c")⟩, ⟨some (str "a/b/d")⟩, ⟨some (str "a/x")⟩]⟩) true
      = [str "a/b/c", str "a/b/d", str "a/x"] := by
  refine ⟨?_, by decide, by decide⟩
  intro items
  constructor
  · refine ⟨List.sorted_insertionSort _ _, ?_, ?_⟩
    · show (List.insertionSort (fun a b : Str => strLe a b = true)
          (items.foldl (itemStep false) [])).Nodup
      rw [(List.perm_insertionSort _ _).nodup_iff]
      exact foldl_itemStep_nodup false items [] List.nodup_nil
    · intro s
      have hm : s ∈ extract_paths_and_segments (some ⟨some items⟩) false ↔
          s ∈ items.foldl (itemStep false) [] :=
        (List.perm_insertionSort _ _).mem_iff
      rw [hm, foldl_itemStep_mem_false]
      simp
  · refine ⟨List.sorted_insertionSort _ _, ?_, ?_⟩
    · show (List.insertionSort (fun a b : Str => strLe a b = true)
          (items.foldl (itemStep true) [])).Nodup
      rw [(List.perm_insertionSort _ _).nodup_iff]
      exact foldl_itemStep_nodup true items [] List.nodup_nil
    · intro s
      have hm : s ∈ extract_paths_and_segments (some ⟨some items⟩) true ↔
          s ∈ items.foldl (itemStep true) [] :=
        (List.perm_insertionSort _ _).mem_iff
      rw [hm, foldl_itemStep_mem_true]
      simp

/-- C10: for every stored configuration and token, adding an
already-present token leaves the stored configuration unchanged (the list
never acquires a duplicate entry), and for an absent token, `add_token`
followed by `remove_token` restores the token list to exactly its
original value. -/
theorem token_add_remove_roundtrip (cfg : OsgitConfig) (t : Str) :
    (t ∈ cfg.github_tokens → add_token cfg t = cfg) ∧
    (t ∉ cfg.github_tokens → remove_token (add_token cfg t) t = cfg) := by
  constructor
  · intro h
    simp [add_token, h]
  · intro h
    have herase : (cfg.github_tokens ++ [t]).erase t = cfg.github_tokens := by
      rw [List.erase_append_right _ h, List.erase_cons_head]
      simp
    simp [add_token, remove_token, h, herase]

theorem token_add_remove_roundtrip_witness :
    (str "ghp_a" ∈ (⟨[str "ghp_a"]⟩ : OsgitConfig).github_tokens ∧
      add_token ⟨[str "ghp_a"]⟩ (str "ghp_a") = ⟨[str "ghp_a"]⟩) ∧
    (str "ghp_b" ∉ (⟨[str "ghp_a"]⟩ : OsgitConfig).github_tokens ∧
      remove_token (add_token ⟨[str "ghp_a"]⟩ (str "ghp_b")) (str "ghp_b")
        = ⟨[str "ghp_a"]⟩) :=
  ⟨⟨by decide, (token_add_remove_roundtrip ⟨[str "ghp_a"]⟩ (str "ghp_a")).1 (by decide)⟩,
   ⟨by decide, (token_add_remove_roundtrip ⟨[str "ghp_a"]⟩ (str "ghp_b")).2 (by decide)⟩⟩
